import Mathlib

/-!
# Verification of the ABCU course-advising catalog

Shallow embedding of `src/assets/Artifacts/Artifact_Two/main.cpp`, which
contains two variants of the program: the original CS-300 version
(lines 1-261) and the enhanced CS-499 version (lines 262-537).  Both share
the same `Course` record and the same BST insertion/traversal logic; the
enhanced version adds an `unordered_map` direct index and a post-load
referential-integrity pass, and uses a different prerequisite-trimming
routine.

Strings are modelled as `List Char`; C++ `std::string` comparison
(`operator<`, byte-lexicographic, which for UTF-8 content coincides with
code-point lexicographic order) is modelled by `charListLt`.
-/

namespace Eportfolio

/-- A C++ `std::string`, modelled as its list of characters. -/
abbrev Str := List Char

/-- C++ `std::string` `operator<`: lexicographic comparison of the
character sequences. -/
def charListLt : Str → Str → Bool
  | [], [] => false
  | [], _ :: _ => true
  | _ :: _, [] => false
  | a :: as, b :: bs =>
      if a < b then true
      else if b < a then false
      else charListLt as bs

/-- Translation of `struct Course` (identical in both variants, main.cpp lines 32-36 and
292-296): course number, title, and ordered prerequisite list. -/
structure Course where
  courseNumber : Str
  courseTitle : Str
  prerequisites : List Str
deriving DecidableEq, Repr

/-- The BST node structure (`struct Node`, lines 43-54 / 302-311):
either a null pointer or a node with a course and two subtrees. -/
inductive Tree where
  | nil : Tree
  | node (course : Course) (left right : Tree) : Tree
deriving DecidableEq, Repr

/-- Translation of `CourseBST::addNode` (lines 69-79), identical to
`CourseBST::insertNode` (lines 333-343): descend left on strictly
smaller course number, right otherwise (equal keys go right); create a
new node at the first null slot. -/
def addNode : Tree → Course → Tree
  | .nil, c => .node c .nil .nil
  | .node d l r, c =>
      if charListLt c.courseNumber d.courseNumber then
        .node d (addNode l c) r
      else
        .node d l (addNode r c)

/-- Translation of `CourseBST::inOrder` (lines 85-91) / `inOrderTraversal` (lines
349-356): the in-order visit sequence (left subtree, node, right
subtree); printing is modelled by returning the visited courses. -/
def inOrder : Tree → List Course
  | .nil => []
  | .node c l r => inOrder l ++ c :: inOrder r

/-- Translation of `CourseBST::search` (lines 97-107, original variant): BST search by
course number, returning the first node whose course number matches. -/
def search : Tree → Str → Option Course
  | .nil, _ => none
  | .node d l r, k =>
      if d.courseNumber = k then some d
      else if charListLt k d.courseNumber then search l k
      else search r k

/-- The tree obtained by `Insert`ing a sequence of courses into an
initially empty `CourseBST` (constructor line 111 / 359, `Insert`
lines 114-116 / 362-364). -/
def buildTree (cs : List Course) : Tree :=
  cs.foldl addNode .nil

/-- The BST ordering invariant: at every node, every course in the left
subtree has a strictly smaller course number and every course in the
right subtree has a greater-or-equal course number (i.e. is not strictly
smaller). -/
def BSTInv : Tree → Prop
  | .nil => True
  | .node c l r =>
      (∀ d ∈ inOrder l, charListLt d.courseNumber c.courseNumber = true) ∧
      (∀ d ∈ inOrder r, charListLt d.courseNumber c.courseNumber = false) ∧
      BSTInv l ∧ BSTInv r

/-- Course `c` sorts no later than `d`: `d`'s course number is not strictly
smaller than `c`'s. -/
def courseLe (c d : Course) : Prop :=
  charListLt d.courseNumber c.courseNumber = false

/-- Translation of `std::unordered_map<string, Course>::find` (used in
`PrintCourseDetails`, lines 443-447, and in the validation pass): exact
key lookup.  The map is modelled as an association list with unique
keys. -/
def mapFind : List (Str × Course) → Str → Option Course
  | [], _ => none
  | (k, v) :: m, x => if k = x then some v else mapFind m x

/-- Translation of `courseMap[course.courseNumber] = course` (line 414):
`std::unordered_map` `operator[]` assignment, an unconditional upsert
that overwrites the entry under an existing key and otherwise adds a new
entry. -/
def mapPut : List (Str × Course) → Str → Course → List (Str × Course)
  | [], k, v => [(k, v)]
  | (k', v') :: m, k, v =>
      if k' = k then (k, v) :: m else (k', v') :: mapPut m k v

/-- The direct index obtained by upserting a sequence of courses (keyed
by course number) into an initially empty map. -/
def buildMap (cs : List Course) : List (Str × Course) :=
  cs.foldl (fun m c => mapPut m c.courseNumber c) []

/-- Splitting a line at every comma, as the repeated
`getline(ss, token, ',')` calls do (lines 174-178 / 400-404).  Always
returns at least one field.  (When the line ends in a comma, `getline`
does not produce the final empty field, because the stream is already at
end-of-file; that field is empty, and parsing treats a missing field and
an empty field identically — fields 1-2 default to empty and an empty
prerequisite token is dropped — so the split model is extensionally
faithful.) -/
def splitOnComma : Str → List Str
  | [] => [[]]
  | c :: rest =>
      if c = ',' then [] :: splitOnComma rest
      else
        match splitOnComma rest with
        | f :: fs => (c :: f) :: fs
        | [] => [[c]]

/-- Translation of `token.find_first_not_of(" ")` (line 405), composed with the
subsequent `erase(0, ·)`: the number of leading characters to drop.
When every character is a space, C++ returns `npos` and `erase` clamps
to the full length, so returning the length models that case. -/
def findFirstNotSpace : Str → Nat
  | [] => 0
  | c :: r => if c = ' ' then findFirstNotSpace r + 1 else 0

/-- Translation of `token.find_last_not_of(" ") + 1` (line 406): one past the index of
the last non-space character, and 0 when there is none (in C++,
`npos + 1 = 0`). -/
def findLastNotSpacePlusOne : Str → Nat
  | [] => 0
  | c :: r =>
      let n := findLastNotSpacePlusOne r
      if n = 0 then (if c = ' ' then 0 else 1) else n + 1

/-- Prerequisite-token trimming of the enhanced variant (lines 405-406):
`token.erase(0, token.find_first_not_of(" "));`
`token.erase(token.find_last_not_of(" ") + 1);` — the second erase is
applied to the already-left-trimmed token and keeps the prefix up to the
last non-space. -/
def trimToken (t : Str) : Str :=
  let t1 := t.drop (findFirstNotSpace t)
  t1.take (findLastNotSpacePlusOne t1)

/-- Prerequisite-token trimming of the original variant (lines 180-185):
`if (!token.empty() && token.front() == ' ') token.erase(token.begin());`
`if (!token.empty() && token.back() == ' ') token.pop_back();` — this
removes at most ONE leading and at most ONE trailing space character. -/
def trimTokenOrig (t : Str) : Str :=
  let t1 := if t.head? = some ' ' then t.tail else t
  if t1.getLast? = some ' ' then t1.dropLast else t1

/-- Modelled from the spec: "each trimmed of leading/trailing ASCII
space characters (only the space character — not tab or other
whitespace)" — removal of ALL leading and trailing spaces, stated with
`dropWhile` for comparison against the source's index-based `trimToken`
and `trimTokenOrig`. -/
def specTrim (t : Str) : Str :=
  ((t.dropWhile (fun c => c = ' ')).reverse.dropWhile (fun c => c = ' ')).reverse

/-- Parsing one retained line in the enhanced variant (lines 395-410):
field 1 is the course number (verbatim), field 2 the title (verbatim,
empty when missing), and each further field is trimmed with `trimToken`
and pushed onto the prerequisite list when non-empty. -/
def parseLine (line : Str) : Course :=
  let fields := splitOnComma line
  { courseNumber := fields.headD []
  , courseTitle := (fields.drop 1).headD []
  , prerequisites :=
      (fields.drop 2).foldl
        (fun acc t =>
          let tok := trimToken t
          if tok.isEmpty then acc else acc ++ [tok]) [] }

/-- Parsing one retained line in the original variant (lines 169-189):
identical to `parseLine` except that tokens are trimmed with
`trimTokenOrig`. -/
def parseLineOrig (line : Str) : Course :=
  let fields := splitOnComma line
  { courseNumber := fields.headD []
  , courseTitle := (fields.drop 1).headD []
  , prerequisites :=
      (fields.drop 2).foldl
        (fun acc t =>
          let tok := trimTokenOrig t
          if tok.isEmpty then acc else acc ++ [tok]) [] }

/-- The catalog state held across menu actions by the enhanced variant's
`main`: the BST (Ordered Index) and the `unordered_map` (Direct
Index). -/
structure Catalog where
  bst : Tree
  map : List (Str × Course)
deriving DecidableEq, Repr

/-- The state before any load: empty BST, empty map (lines 471-472). -/
def emptyCatalog : Catalog := ⟨.nil, []⟩

/-- One referential-integrity warning, `"Warning: Course <owner>
references missing prerequisite <missing>"` (lines 427-429). -/
structure Warning where
  owner : Str
  missing : Str
deriving DecidableEq, Repr

/-- The only failure `LoadCourses` can signal: the source file cannot be
opened (lines 386-389). -/
inductive LoadError where
  | IOUnavailable : LoadError
deriving DecidableEq, Repr

/-- The observable outcome of one `LoadCourses` call: the catalog state
on return, the warnings printed by the validation pass, and the error
printed on open failure. -/
structure LoadResult where
  catalog : Catalog
  warnings : List Warning
  err : Option LoadError
deriving DecidableEq, Repr

/-- The body of the `while (getline(file, line))` loop (lines 392-415):
skip the line when it is empty, otherwise parse it and insert the course
into both the BST and the map. -/
def insertLine (cat : Catalog) (line : Str) : Catalog :=
  if line.isEmpty then cat
  else
    let course := parseLine line
    { bst := addNode cat.bst course
    , map := mapPut cat.map course.courseNumber course }

/-- The inner loop of the validation pass (lines 425-431): for each
prerequisite of one record, look it up in the final map and emit a
warning when absent. -/
def warningsFor (m : List (Str × Course)) (k : Str) (ps : List Str) :
    List Warning :=
  ps.foldl (fun ws p => if (mapFind m p).isNone then ws ++ [⟨k, p⟩] else ws) []

/-- The validation pass (lines 424-432): iterate over every entry of the
final map, emitting warnings; the catalog is threaded through unchanged
because the loop body only reads it. -/
def validatePass (cat : Catalog) : Catalog × List Warning :=
  cat.map.foldl
    (fun acc e => (acc.1, acc.2 ++ warningsFor cat.map e.1 e.2.prerequisites))
    (cat, [])

/-- Translation of `LoadCourses` of the enhanced variant (lines 380-433).  The source is
`none` when the file cannot be opened and `some lines` when it can, in
which case `lines` are the strings produced by `getline` (line endings
already removed). -/
def LoadCourses (source : Option (List Str)) (cat : Catalog) : LoadResult :=
  match source with
  | none => { catalog := cat, warnings := [], err := some .IOUnavailable }
  | some lines =>
      let loaded := lines.foldl insertLine cat
      let validated := validatePass loaded
      { catalog := validated.1, warnings := validated.2, err := none }

/-- The invariant of claim C9: every stored prerequisite string, in
either index, is non-empty. -/
def CatPrereqsNonEmpty (cat : Catalog) : Prop :=
  (∀ c ∈ inOrder cat.bst, ∀ p ∈ c.prerequisites, p ≠ []) ∧
  (∀ e ∈ cat.map, ∀ p ∈ e.2.prerequisites, p ≠ [])

/-! ## Order lemmas for `charListLt` -/

theorem charListLt_iff_lex : ∀ {a b : Str},
    charListLt a b = true ↔ List.Lex (· < ·) a b := by
  intro a
  induction a with
  | nil =>
    intro b
    cases b with
    | nil => simp [charListLt]
    | cons y ys => simp [charListLt]; exact List.Lex.nil
  | cons x xs ih =>
    intro b
    cases b with
    | nil =>
      simp [charListLt]
    | cons y ys =>
      by_cases hxy : x < y
      · simp [charListLt, hxy]
        exact List.Lex.rel hxy
      · by_cases hyx : y < x
        · simp [charListLt, hxy, hyx]
          intro h
          cases h with
          | rel h' => exact absurd h' hxy
          | cons h' => exact absurd hyx (lt_irrefl x)
        · have hxyeq : x = y := le_antisymm (not_lt.mp hyx) (not_lt.mp hxy)
          subst hxyeq
          simp [charListLt, hxy]
          constructor
          · intro h
            exact List.Lex.cons (ih.mp h)
          · intro h
            cases h with
            | rel h' => exact absurd h' (lt_irrefl x)
            | cons h' => exact ih.mpr h'

theorem charListLt_irrefl (a : Str) : charListLt a a = false := by
  by_contra h
  have := charListLt_iff_lex.mp (by simpa using h)
  exact absurd this (irrefl_of (List.Lex (· < ·)) a)

theorem charListLt_trans {a b c : Str} (hab : charListLt a b = true)
    (hbc : charListLt b c = true) : charListLt a c = true :=
  charListLt_iff_lex.mpr
    (trans_of (List.Lex (· < ·)) (charListLt_iff_lex.mp hab)
      (charListLt_iff_lex.mp hbc))

theorem charListLt_asymm {a b : Str} (hab : charListLt a b = true) :
    charListLt b a = false := by
  by_contra h
  have hba := charListLt_iff_lex.mp (by simpa using h)
  exact asymm_of (List.Lex (· < ·)) (charListLt_iff_lex.mp hab) hba

/-! ## BST lemmas -/

theorem inOrder_addNode_perm (t : Tree) (c : Course) :
    (inOrder (addNode t c)).Perm (c :: inOrder t) := by
  induction t with
  | nil => simp [addNode, inOrder]
  | node d l r ihl ihr =>
    by_cases h : charListLt c.courseNumber d.courseNumber
    · simp only [addNode, h, if_pos, inOrder]
      exact ihl.append_right (d :: inOrder r)
    · simp only [addNode, h, if_neg, ite_false, inOrder, Bool.false_eq_true,
        not_false_eq_true]
      refine (List.Perm.append_left (inOrder l) ((ihr).cons d)).trans ?_
      have hmid := @List.perm_middle _ c (inOrder l ++ [d]) (inOrder r)
      simpa using hmid

theorem mem_inOrder_addNode {t : Tree} {c d : Course} :
    d ∈ inOrder (addNode t c) ↔ d = c ∨ d ∈ inOrder t := by
  rw [(inOrder_addNode_perm t c).mem_iff]
  simp

theorem addNode_BSTInv {t : Tree} (c : Course) (h : BSTInv t) :
    BSTInv (addNode t c) := by
  induction t with
  | nil => simp [addNode, BSTInv, inOrder]
  | node d l r ihl ihr =>
    obtain ⟨hl, hr, hil, hir⟩ := h
    by_cases hc : charListLt c.courseNumber d.courseNumber
    · simp only [addNode, hc, if_pos, BSTInv]
      refine ⟨?_, hr, ihl hil, hir⟩
      intro e he
      rcases mem_inOrder_addNode.mp he with rfl | he'
      · exact hc
      · exact hl e he'
    · simp only [addNode, hc, if_neg, ite_false, BSTInv, Bool.false_eq_true,
        not_false_eq_true]
      refine ⟨hl, ?_, hil, ihr hir⟩
      intro e he
      rcases mem_inOrder_addNode.mp he with rfl | he'
      · exact Bool.not_eq_true _ ▸ (by simpa using hc)
      · exact hr e he'

theorem foldl_addNode_BSTInv : ∀ (cs : List Course) {t : Tree},
    BSTInv t → BSTInv (cs.foldl addNode t) := by
  intro cs
  induction cs with
  | nil => intro t h; simpa using h
  | cons c cs ih =>
    intro t h
    simpa using ih (addNode_BSTInv c h)

theorem inOrder_sorted {t : Tree} (h : BSTInv t) :
    (inOrder t).Pairwise courseLe := by
  induction t with
  | nil => simp [inOrder]
  | node d l r ihl ihr =>
    obtain ⟨hl, hr, hil, hir⟩ := h
    simp only [inOrder, List.pairwise_append, List.pairwise_cons]
    refine ⟨ihl hil, ⟨fun y hy => hr y hy, ihr hir⟩, ?_⟩
    intro x hx y hy
    rcases List.mem_cons.mp hy with rfl | hy'
    · exact charListLt_asymm (hl x hx)
    · show charListLt y.courseNumber x.courseNumber = false
      by_contra hcon
      have h1 : charListLt y.courseNumber x.courseNumber = true := by
        simpa using hcon
      have h2 : charListLt y.courseNumber d.courseNumber = true :=
        charListLt_trans h1 (hl x hx)
      rw [hr y hy'] at h2
      exact Bool.false_ne_true h2

theorem inOrder_foldl_perm : ∀ (cs : List Course) (t : Tree),
    (inOrder (cs.foldl addNode t)).Perm (cs ++ inOrder t) := by
  intro cs
  induction cs with
  | nil => intro t; simp
  | cons c cs ih =>
    intro t
    simp only [List.foldl_cons, List.cons_append]
    exact (ih (addNode t c)).trans
      ((List.Perm.append_left cs (inOrder_addNode_perm t c)).trans
        List.perm_middle)

theorem filter_inOrder_addNode {t : Tree} (c : Course) (X : Str)
    (h : BSTInv t) :
    (inOrder (addNode t c)).filter (fun d => decide (d.courseNumber = X)) =
      if c.courseNumber = X then
        (inOrder t).filter (fun d => decide (d.courseNumber = X)) ++ [c]
      else
        (inOrder t).filter (fun d => decide (d.courseNumber = X)) := by
  induction t with
  | nil =>
    by_cases hX : c.courseNumber = X <;>
      simp [addNode, inOrder, hX]
  | node d l r ihl ihr =>
    obtain ⟨hl, hr, hil, hir⟩ := h
    by_cases hc : charListLt c.courseNumber d.courseNumber
    · simp only [addNode, hc, if_pos, inOrder, List.filter_append,
        List.filter_cons]
      rw [ihl hil]
      by_cases hX : c.courseNumber = X
      · have hdX : ¬ d.courseNumber = X := by
          intro hd
          rw [hX, ← hd] at hc
          rw [charListLt_irrefl] at hc
          exact Bool.false_ne_true hc
        have hrX : (inOrder r).filter
            (fun e => decide (e.courseNumber = X)) = [] := by
          apply List.filter_eq_nil_iff.mpr
          intro e he
          simp only [decide_eq_true_eq]
          intro heX
          have := hr e he
          rw [heX, ← hX] at this
          rw [this] at hc
          exact Bool.false_ne_true hc
        simp [hX, hdX, hrX]
      · simp [hX]
    · simp only [addNode, hc, if_neg, ite_false, inOrder, List.filter_append,
        List.filter_cons, Bool.false_eq_true, not_false_eq_true]
      rw [ihr hir]
      by_cases hX : c.courseNumber = X <;>
        by_cases hdX : d.courseNumber = X <;>
          simp [hX, hdX]

theorem filter_inOrder_foldl (X : Str) : ∀ (cs : List Course) {t : Tree},
    BSTInv t →
    (inOrder (cs.foldl addNode t)).filter (fun d => decide (d.courseNumber = X)) =
      (inOrder t).filter (fun d => decide (d.courseNumber = X)) ++
        cs.filter (fun d => decide (d.courseNumber = X)) := by
  intro cs
  induction cs with
  | nil => intro t _; simp
  | cons c cs ih =>
    intro t ht
    simp only [List.foldl_cons, List.filter_cons]
    rw [ih (addNode_BSTInv c ht), filter_inOrder_addNode c X ht]
    by_cases hX : c.courseNumber = X <;> simp [hX]

/-! ## Claims C1 and C2 -/

/-- C1: every sequence of `Insert` calls starting from the empty
`CourseBST` yields a tree satisfying the BST ordering invariant — at
every reachable node all identifiers in the left subtree compare
strictly less than the node's identifier and all identifiers in the
right subtree compare greater-or-equal (lexicographic string order) —
and the in-order sequence has exactly one entry per insertion, so an
equal-key insert never replaces an existing node. -/
theorem C1_insert_preserves_bst_invariant (cs : List Course) :
    BSTInv (buildTree cs) ∧ (inOrder (buildTree cs)).length = cs.length := by
  constructor
  · exact foldl_addNode_BSTInv cs trivial
  · have := (inOrder_foldl_perm cs .nil).length_eq
    simpa [buildTree] using this

/-- C2: in-order enumeration of the tree built from any insertion
sequence is sorted by non-decreasing identifier, is a permutation of the
inserted courses, and for every identifier `X` the enumeration restricted
to `X` equals the insertion sequence restricted to `X` (so duplicates of
an identifier appear consecutively — forced by sortedness — and in
insertion order); enumeration of the empty tree is empty. -/
theorem C2_inorder_sorted_stable_complete (cs : List Course) (X : Str) :
    (inOrder (buildTree cs)).Pairwise courseLe ∧
    (inOrder (buildTree cs)).Perm cs ∧
    (inOrder (buildTree cs)).filter (fun d => decide (d.courseNumber = X)) =
      cs.filter (fun d => decide (d.courseNumber = X)) ∧
    inOrder (buildTree []) = [] := by
  refine ⟨inOrder_sorted (foldl_addNode_BSTInv cs trivial), ?_, ?_, rfl⟩
  · have := inOrder_foldl_perm cs .nil
    simpa [buildTree, inOrder] using this
  · have := @filter_inOrder_foldl X cs Tree.nil trivial
    simpa [buildTree] using this

/-! ## Direct-index (map) lemmas -/

theorem mapFind_mapPut (m : List (Str × Course)) (k : Str) (v : Course)
    (x : Str) :
    mapFind (mapPut m k v) x = if k = x then some v else mapFind m x := by
  induction m with
  | nil => simp [mapPut, mapFind]
  | cons e m ih =>
    obtain ⟨k', v'⟩ := e
    by_cases h1 : k' = k
    · subst h1
      by_cases h2 : k' = x <;> simp [mapPut, mapFind, h2]
    · by_cases h2 : k' = x
      · subst h2
        have hk : ¬ k = k' := fun h => h1 h.symm
        simp [mapPut, mapFind, h1, hk]
      · simp [mapPut, mapFind, h1, h2, ih]

theorem mapFind_foldl_of_absent : ∀ (cs : List Course)
    (m : List (Str × Course)) (X : Str),
    (∀ c ∈ cs, c.courseNumber ≠ X) →
    mapFind (cs.foldl (fun m c => mapPut m c.courseNumber c) m) X =
      mapFind m X := by
  intro cs
  induction cs with
  | nil => intro m X _; rfl
  | cons c cs ih =>
    intro m X h
    simp only [List.foldl_cons]
    rw [ih _ X (fun d hd => h d (List.mem_cons_of_mem c hd)),
      mapFind_mapPut]
    have : ¬ c.courseNumber = X := h c (List.mem_cons_self c cs)
    simp [this]

theorem mapFind_foldl_of_last : ∀ (cs : List Course)
    (m : List (Str × Course)) (X : Str) (c : Course),
    (cs.filter (fun d => decide (d.courseNumber = X))).getLast? = some c →
    mapFind (cs.foldl (fun m c => mapPut m c.courseNumber c) m) X =
      some c := by
  intro cs
  induction cs with
  | nil => intro m X c h; simp at h
  | cons d cs ih =>
    intro m X c h
    simp only [List.foldl_cons]
    by_cases hd : d.courseNumber = X
    · rcases hlast : (cs.filter (fun e => decide (e.courseNumber = X))).getLast?
        with _ | e
      · have hnil : cs.filter (fun e => decide (e.courseNumber = X)) = [] :=
          List.getLast?_eq_none_iff.mp hlast
        have habs : ∀ e ∈ cs, e.courseNumber ≠ X := by
          intro e he
          have := List.filter_eq_nil_iff.mp hnil e he
          simpa using this
        have hc : c = d := by
          rw [List.filter_cons_of_pos (by simpa using hd), hnil] at h
          simpa using h.symm
        subst hc
        rw [mapFind_foldl_of_absent cs _ X habs, mapFind_mapPut]
        simp [hd]
      · have hce : c = e := by
          rw [List.filter_cons_of_pos (by simpa using hd)] at h
          rw [List.getLast?_cons, hlast] at h
          simpa using h.symm
        rw [hce]
        exact ih _ X e hlast
    · rw [List.filter_cons_of_neg (by simpa using hd)] at h
      exact ih _ X c h

/-- Whenever `search` finds a course, that course has the searched
number and lies in the tree. -/
theorem search_some : ∀ (t : Tree) (X : Str) (d : Course),
    search t X = some d → d.courseNumber = X ∧ d ∈ inOrder t := by
  intro t
  induction t with
  | nil => intro X d h; simp [search] at h
  | node e l r ihl ihr =>
    intro X d h
    simp only [search] at h
    by_cases h1 : e.courseNumber = X
    · simp only [h1, if_pos] at h
      cases h
      exact ⟨h1, by simp [inOrder]⟩
    · simp only [h1, if_neg, ite_false, not_false_eq_true] at h
      by_cases h2 : charListLt X e.courseNumber
      · simp only [h2, if_pos] at h
        obtain ⟨hid, hmem⟩ := ihl X d h
        exact ⟨hid, by simp [inOrder, hmem]⟩
      · simp only [h2, if_neg, ite_false, Bool.false_eq_true,
          not_false_eq_true] at h
        obtain ⟨hid, hmem⟩ := ihr X d h
        exact ⟨hid, by simp [inOrder, hmem]⟩

/-! ## Claims C3 and C8 -/

/-- C3: when identifier `X` has been inserted at least once (the
insertion sequence filtered to `X` has a last element `c`), the direct
index built by the loader's unconditional upserts returns exactly that
most recently inserted record, while the in-order BST enumeration still
contains every record inserted under `X`, in insertion order. -/
theorem C3_find_returns_last_write (cs : List Course) (X : Str) (c : Course)
    (h : (cs.filter (fun d => decide (d.courseNumber = X))).getLast? = some c) :
    mapFind (buildMap cs) X = some c ∧
    (inOrder (buildTree cs)).filter (fun d => decide (d.courseNumber = X)) =
      cs.filter (fun d => decide (d.courseNumber = X)) := by
  constructor
  · exact mapFind_foldl_of_last cs [] X c h
  · have := @filter_inOrder_foldl X cs Tree.nil trivial
    simpa [buildTree, inOrder] using this

/-- Witness for C3 at a concrete input: two records share identifier
"CS1" and the lookup returns the second (most recent) one, while the
ordered-index enumeration keeps both. -/
theorem C3_find_returns_last_write_witness :
    (([⟨['C', 'S', '1'], ['A'], []⟩, ⟨['C', 'S', '1'], ['B'], []⟩] :
        List Course).filter
      (fun d => decide (d.courseNumber = ['C', 'S', '1']))).getLast? =
        some ⟨['C', 'S', '1'], ['B'], []⟩ ∧
    (mapFind (buildMap [⟨['C', 'S', '1'], ['A'], []⟩,
        ⟨['C', 'S', '1'], ['B'], []⟩]) ['C', 'S', '1'] =
      some ⟨['C', 'S', '1'], ['B'], []⟩ ∧
    (inOrder (buildTree [⟨['C', 'S', '1'], ['A'], []⟩,
        ⟨['C', 'S', '1'], ['B'], []⟩])).filter
      (fun d => decide (d.courseNumber = ['C', 'S', '1'])) =
      ([⟨['C', 'S', '1'], ['A'], []⟩, ⟨['C', 'S', '1'], ['B'], []⟩] :
        List Course).filter
        (fun d => decide (d.courseNumber = ['C', 'S', '1']))) :=
  ⟨by decide, C3_find_returns_last_write _ _ _ (by decide)⟩

/-- C8: an identifier never inserted is not found: the direct index
returns `none` (hence `PrintCourseDetails` prints "Course not found."),
the original variant's BST `search` also returns `none`, and on the
empty catalog every lookup returns `none`. -/
theorem C8_lookup_never_inserted_not_found (cs : List Course) (X : Str)
    (h : ∀ c ∈ cs, c.courseNumber ≠ X) :
    mapFind (buildMap cs) X = none ∧
    search (buildTree cs) X = none ∧
    mapFind emptyCatalog.map X = none ∧
    search emptyCatalog.bst X = none := by
  refine ⟨?_, ?_, rfl, rfl⟩
  · exact mapFind_foldl_of_absent cs [] X h
  · rcases hs : search (buildTree cs) X with _ | d
    · rfl
    · obtain ⟨hid, hmem⟩ := search_some _ X d hs
      have hperm := inOrder_foldl_perm cs .nil
      have : d ∈ cs := by
        have := hperm.mem_iff.mp (by simpa [buildTree] using hmem)
        simpa [inOrder] using this
      exact absurd hid (h d this)

/-- Witness for C8 at a concrete input: identifier "X" was never
inserted into a one-course catalog, and both lookups miss; lookups on
the empty catalog miss as well. -/
theorem C8_lookup_never_inserted_not_found_witness :
    (∀ c ∈ ([⟨['C', 'S', '1'], ['A'], []⟩] : List Course),
      c.courseNumber ≠ ['X']) ∧
    (mapFind (buildMap [⟨['C', 'S', '1'], ['A'], []⟩]) ['X'] = none ∧
    search (buildTree [⟨['C', 'S', '1'], ['A'], []⟩]) ['X'] = none ∧
    mapFind emptyCatalog.map ['X'] = none ∧
    search emptyCatalog.bst ['X'] = none) :=
  ⟨by decide, C8_lookup_never_inserted_not_found _ _ (by decide)⟩

/-! ## Trimming lemmas -/

theorem drop_findFirstNotSpace (t : Str) :
    t.drop (findFirstNotSpace t) = t.dropWhile (fun c => c = ' ') := by
  induction t with
  | nil => rfl
  | cons c r ih =>
    by_cases h : c = ' '
    · simp [findFirstNotSpace, h, List.dropWhile_cons, ih]
    · simp [findFirstNotSpace, h, List.dropWhile_cons]

theorem findLastNotSpacePlusOne_eq_zero_iff (t : Str) :
    findLastNotSpacePlusOne t = 0 ↔ ∀ c ∈ t, c = ' ' := by
  induction t with
  | nil => simp [findLastNotSpacePlusOne]
  | cons c r ih =>
    have hunf : findLastNotSpacePlusOne (c :: r) =
        if findLastNotSpacePlusOne r = 0 then (if c = ' ' then 0 else 1)
        else findLastNotSpacePlusOne r + 1 := rfl
    rw [hunf]
    by_cases hn : findLastNotSpacePlusOne r = 0
    · rw [if_pos hn]
      by_cases hc : c = ' '
      · rw [if_pos hc]
        constructor
        · intro _ d hd
          rcases List.mem_cons.mp hd with rfl | hd'
          · exact hc
          · exact (ih.mp hn) d hd'
        · intro _; rfl
      · rw [if_neg hc]
        constructor
        · intro h1; exact absurd h1 one_ne_zero
        · intro h1; exact absurd (h1 c (List.mem_cons_self c r)) hc
    · rw [if_neg hn]
      constructor
      · intro h1; exact absurd h1 (Nat.succ_ne_zero _)
      · intro h1
        exact absurd (ih.mpr fun d hd => h1 d (List.mem_cons_of_mem c hd)) hn

theorem take_findLastNotSpacePlusOne (t : Str) :
    t.take (findLastNotSpacePlusOne t) =
      (t.reverse.dropWhile (fun c => c = ' ')).reverse := by
  induction t with
  | nil => rfl
  | cons c r ih =>
    have hunf : findLastNotSpacePlusOne (c :: r) =
        if findLastNotSpacePlusOne r = 0 then (if c = ' ' then 0 else 1)
        else findLastNotSpacePlusOne r + 1 := rfl
    rw [hunf]
    by_cases hn : findLastNotSpacePlusOne r = 0
    · have hall : ∀ d ∈ r, d = ' ' := (findLastNotSpacePlusOne_eq_zero_iff r).mp hn
      have hrev : r.reverse.dropWhile (fun c => decide (c = ' ')) = [] := by
        rw [List.dropWhile_eq_nil_iff]
        intro x hx
        simpa using hall x (List.mem_reverse.mp hx)
      rw [if_pos hn]
      by_cases hc : c = ' '
      · rw [if_pos hc]
        simp [List.reverse_cons, List.dropWhile_append, hrev, hc]
      · rw [if_neg hc]
        simp [List.reverse_cons, List.dropWhile_append, hrev, hc]
    · have hne : ¬ r.reverse.dropWhile (fun c => decide (c = ' ')) = [] := by
        intro h0
        apply hn
        apply (findLastNotSpacePlusOne_eq_zero_iff r).mpr
        intro d hd
        simpa using List.dropWhile_eq_nil_iff.mp h0 d (List.mem_reverse.mpr hd)
      rw [if_neg hn]
      rw [List.take_succ_cons, ih, List.reverse_cons, List.dropWhile_append]
      simp [List.isEmpty_iff, hne]

/-- The enhanced variant's index-arithmetic trimming is exactly removal
of all leading and trailing spaces. -/
theorem trimToken_eq_specTrim (t : Str) : trimToken t = specTrim t := by
  unfold trimToken specTrim
  rw [drop_findFirstNotSpace, take_findLastNotSpacePlusOne]

theorem head?_dropWhile_space (l : Str) :
    (l.dropWhile (fun c => c = ' ')).head? ≠ some ' ' := by
  induction l with
  | nil => simp
  | cons c r ih =>
    by_cases h : c = ' '
    · simpa [List.dropWhile_cons, h] using ih
    · simp [List.dropWhile_cons, h]

theorem specTrim_head? (t : Str) : (specTrim t).head? ≠ some ' ' := by
  intro habs
  have hdecomp :
      ((t.dropWhile (fun c => c = ' ')).reverse.dropWhile
          (fun c => c = ' ')).reverse ++
        ((t.dropWhile (fun c => c = ' ')).reverse.takeWhile
          (fun c => c = ' ')).reverse =
      t.dropWhile (fun c => c = ' ') := by
    rw [← List.reverse_append, List.takeWhile_append_dropWhile,
      List.reverse_reverse]
  have h1 : (t.dropWhile (fun c => c = ' ')).head? = some ' ' := by
    rw [← hdecomp, List.head?_append]
    unfold specTrim at habs
    rw [habs]
    rfl
  exact head?_dropWhile_space t h1

theorem specTrim_getLast? (t : Str) : (specTrim t).getLast? ≠ some ' ' := by
  unfold specTrim
  rw [List.getLast?_reverse]
  exact head?_dropWhile_space _

/-! ## Parsing lemmas -/

theorem foldl_push_eq_filter_map (f : Str → Str) : ∀ (ts acc : List Str),
    ts.foldl (fun acc t =>
      let tok := f t
      if tok.isEmpty then acc else acc ++ [tok]) acc =
    acc ++ (ts.map f).filter (fun s => !s.isEmpty) := by
  intro ts
  induction ts with
  | nil => intro acc; simp
  | cons t ts ih =>
    intro acc
    simp only [List.foldl_cons, List.map_cons, List.filter_cons]
    by_cases h : (f t).isEmpty
    · rw [if_pos h, ih]
      simp [h]
    · rw [if_neg h, ih]
      simp [h, List.append_assoc]

theorem parseLine_prereqs (line : Str) :
    (parseLine line).prerequisites =
      (((splitOnComma line).drop 2).map trimToken).filter
        (fun s => !s.isEmpty) := by
  unfold parseLine
  simpa using foldl_push_eq_filter_map trimToken ((splitOnComma line).drop 2) []

theorem parseLineOrig_prereqs (line : Str) :
    (parseLineOrig line).prerequisites =
      (((splitOnComma line).drop 2).map trimTokenOrig).filter
        (fun s => !s.isEmpty) := by
  unfold parseLineOrig
  simpa using
    foldl_push_eq_filter_map trimTokenOrig ((splitOnComma line).drop 2) []

theorem splitOnComma_ne_nil (s : Str) : splitOnComma s ≠ [] := by
  induction s with
  | nil => simp [splitOnComma]
  | cons c rest ih =>
    by_cases h : c = ','
    · simp [splitOnComma, h]
    · rcases hs : splitOnComma rest with _ | ⟨f, fs⟩ <;>
        simp [splitOnComma, h, hs]

theorem headD_splitOnComma (s : Str) :
    (splitOnComma s).headD [] = s.takeWhile (fun c => c ≠ ',') := by
  induction s with
  | nil => rfl
  | cons c rest ih =>
    by_cases h : c = ','
    · simp [splitOnComma, h, List.takeWhile_cons]
    · rcases hs : splitOnComma rest with _ | ⟨f, fs⟩
      · exact absurd hs (splitOnComma_ne_nil rest)
      · have hsplit : splitOnComma (c :: rest) = (c :: f) :: fs := by
          simp [splitOnComma, h, hs]
        rw [hs] at ih
        rw [hsplit]
        simp only [List.headD_cons] at ih ⊢
        simp [List.takeWhile_cons, h, ih]

theorem splitOnComma_no_comma {s : Str} (h : ',' ∉ s) : splitOnComma s = [s] := by
  induction s with
  | nil => rfl
  | cons c rest ih =>
    have hc : ¬ c = ',' := by
      intro e
      exact h (e ▸ List.mem_cons_self c rest)
    have hrest : ',' ∉ rest := fun hr => h (List.mem_cons_of_mem c hr)
    simp [splitOnComma, hc, ih hrest]

theorem parseLine_number (line : Str) :
    (parseLine line).courseNumber = line.takeWhile (fun c => c ≠ ',') := by
  unfold parseLine
  simpa using headD_splitOnComma line

theorem parseLineOrig_number (line : Str) :
    (parseLineOrig line).courseNumber = line.takeWhile (fun c => c ≠ ',') := by
  unfold parseLineOrig
  simpa using headD_splitOnComma line

theorem parseLine_title_no_comma (line : Str) (h : ',' ∉ line) :
    (parseLine line).courseTitle = [] := by
  unfold parseLine
  simp [splitOnComma_no_comma h]

theorem parseLineOrig_title_no_comma (line : Str) (h : ',' ∉ line) :
    (parseLineOrig line).courseTitle = [] := by
  unfold parseLineOrig
  simp [splitOnComma_no_comma h]

theorem parseLine_prereq_ne_nil (line : Str) :
    ∀ p ∈ (parseLine line).prerequisites, p ≠ [] := by
  rw [parseLine_prereqs]
  intro p hp
  simpa using (List.mem_filter.mp hp).2

theorem parseLineOrig_prereq_ne_nil (line : Str) :
    ∀ p ∈ (parseLineOrig line).prerequisites, p ≠ [] := by
  rw [parseLineOrig_prereqs]
  intro p hp
  simpa using (List.mem_filter.mp hp).2

/-! ## Claims C4, C5, C6 -/

/-- C4: when the source cannot be opened, `LoadCourses` reports the
failure and returns before any parsing: the BST and the map are exactly
the caller's prior state and no warnings are emitted. -/
theorem C4_open_failure_no_insertions (cat : Catalog) :
    (LoadCourses none cat).err = some LoadError.IOUnavailable ∧
    (LoadCourses none cat).catalog.bst = cat.bst ∧
    (LoadCourses none cat).catalog.map = cat.map ∧
    (LoadCourses none cat).warnings = [] :=
  ⟨rfl, rfl, rfl, rfl⟩

/-- C5 (amended): in the enhanced variant every prerequisite field is
trimmed of ALL leading and trailing spaces (`trimToken` coincides with
the spec-worded `specTrim`, and every stored prerequisite is non-empty
with no space at either end), fields 1-2 are stored verbatim, and
emptied fields are dropped; the original variant uses `trimTokenOrig`,
which removes at most one leading and one trailing space (see the
counterexample), but still drops emptied fields, so its stored
prerequisites are non-empty. -/
theorem C5_prereq_trimming_amended (line : Str) (t : Str) :
    trimToken t = specTrim t ∧
    (parseLine line).prerequisites =
      (((splitOnComma line).drop 2).map trimToken).filter
        (fun s => !s.isEmpty) ∧
    (∀ q ∈ (parseLine line).prerequisites,
      q ≠ [] ∧ q.head? ≠ some ' ' ∧ q.getLast? ≠ some ' ') ∧
    (parseLine line).courseNumber = (splitOnComma line).headD [] ∧
    (parseLine line).courseTitle = ((splitOnComma line).drop 1).headD [] ∧
    (parseLineOrig line).prerequisites =
      (((splitOnComma line).drop 2).map trimTokenOrig).filter
        (fun s => !s.isEmpty) ∧
    (∀ q ∈ (parseLineOrig line).prerequisites, q ≠ []) := by
  refine ⟨trimToken_eq_specTrim t, parseLine_prereqs line, ?_, rfl, rfl,
    parseLineOrig_prereqs line, parseLineOrig_prereq_ne_nil line⟩
  intro q hq
  have hne : q ≠ [] := parseLine_prereq_ne_nil line q hq
  rw [parseLine_prereqs] at hq
  obtain ⟨raw, _, hqe⟩ := List.mem_map.mp (List.mem_filter.mp hq).1
  refine ⟨hne, ?_, ?_⟩
  · rw [← hqe, trimToken_eq_specTrim]
    exact specTrim_head? raw
  · rw [← hqe, trimToken_eq_specTrim]
    exact specTrim_getLast? raw

/-- Witness for C5 at a concrete input: on the line `A,B, C ` the
enhanced parser stores the fully trimmed prerequisite `C`. -/
theorem C5_prereq_trimming_amended_witness :
    trimToken [' ', 'C', ' '] = specTrim [' ', 'C', ' '] ∧
    ['C'] ∈ (parseLine ['A', ',', 'B', ',', ' ', 'C', ' ']).prerequisites ∧
    (['C'] ≠ ([] : Str) ∧ (['C'] : Str).head? ≠ some ' ' ∧
      (['C'] : Str).getLast? ≠ some ' ') :=
  ⟨(C5_prereq_trimming_amended ['A', ',', 'B', ',', ' ', 'C', ' ']
      [' ', 'C', ' ']).1,
   by decide,
   (C5_prereq_trimming_amended ['A', ',', 'B', ',', ' ', 'C', ' ']
      [' ', 'C', ' ']).2.2.1 ['C'] (by decide)⟩

/-- Counterexample to C5 as stated: the original variant's loader
(main.cpp lines 180-185) removes only ONE leading space, so on the line
`A,B,␣␣C` the stored prerequisite is `␣C`, which still starts with a
space — it is not trimmed of all leading spaces. -/
theorem C5_counterexample_orig_partial_trim :
    (parseLineOrig ['A', ',', 'B', ',', ' ', ' ', 'C']).prerequisites =
      [[' ', 'C']] ∧
    ([' ', 'C'] : Str).head? = some ' ' := by
  decide

/-- C6: a line is skipped when and only when it is empty; every
non-empty line (including a line of only spaces) produces exactly one
record, inserted into both indexes, whose identifier is the portion of
the line before the first comma; and in both variants a line without a
comma yields an empty title.  No line is rejected. -/
theorem C6_empty_line_skip_no_rejection (cat : Catalog) (line : Str) :
    (line = [] → insertLine cat line = cat) ∧
    (line ≠ [] →
      insertLine cat line =
        { bst := addNode cat.bst (parseLine line)
        , map := mapPut cat.map (parseLine line).courseNumber
            (parseLine line) } ∧
      (parseLine line).courseNumber =
        line.takeWhile (fun c => c ≠ ',') ∧
      (parseLineOrig line).courseNumber =
        line.takeWhile (fun c => c ≠ ',')) ∧
    (',' ∉ line →
      (parseLine line).courseTitle = [] ∧
      (parseLineOrig line).courseTitle = []) := by
  refine ⟨?_, ?_, ?_⟩
  · intro h
    simp [insertLine, h]
  · intro h
    refine ⟨?_, parseLine_number line, parseLineOrig_number line⟩
    simp [insertLine, h]
  · intro h
    exact ⟨parseLine_title_no_comma line h, parseLineOrig_title_no_comma line h⟩

/-- Witness for C6 at concrete inputs: the empty line is skipped, and
the two-space line (which contains no comma) produces a record with the
two-space identifier and an empty title. -/
theorem C6_empty_line_skip_no_rejection_witness :
    insertLine emptyCatalog [] = emptyCatalog ∧
    (insertLine emptyCatalog [' ', ' '] =
      { bst := addNode emptyCatalog.bst (parseLine [' ', ' '])
      , map := mapPut emptyCatalog.map (parseLine [' ', ' ']).courseNumber
          (parseLine [' ', ' ']) } ∧
      (parseLine [' ', ' ']).courseNumber =
        ([' ', ' '] : Str).takeWhile (fun c => c ≠ ',') ∧
      (parseLineOrig [' ', ' ']).courseNumber =
        ([' ', ' '] : Str).takeWhile (fun c => c ≠ ',')) ∧
    ((parseLine [' ', ' ']).courseTitle = [] ∧
      (parseLineOrig [' ', ' ']).courseTitle = []) :=
  ⟨(C6_empty_line_skip_no_rejection emptyCatalog []).1 rfl,
   (C6_empty_line_skip_no_rejection emptyCatalog [' ', ' ']).2.1 (by decide),
   (C6_empty_line_skip_no_rejection emptyCatalog [' ', ' ']).2.2 (by decide)⟩

/-! ## Validation-pass lemmas -/

theorem mem_mapPut {m : List (Str × Course)} {k : Str} {v : Course}
    {e : Str × Course} (h : e ∈ mapPut m k v) : e = (k, v) ∨ e ∈ m := by
  induction m with
  | nil => simpa [mapPut] using h
  | cons e' m ih =>
    obtain ⟨k', v'⟩ := e'
    by_cases h1 : k' = k
    · rw [show mapPut ((k', v') :: m) k v = (k, v) :: m from by
        simp [mapPut, h1]] at h
      rcases List.mem_cons.mp h with h | h
      · exact Or.inl h
      · exact Or.inr (List.mem_cons_of_mem _ h)
    · rw [show mapPut ((k', v') :: m) k v = (k', v') :: mapPut m k v from by
        simp [mapPut, h1]] at h
      rcases List.mem_cons.mp h with h | h
      · exact Or.inr (h ▸ List.mem_cons_self _ _)
      · rcases ih h with h | h
        · exact Or.inl h
        · exact Or.inr (List.mem_cons_of_mem _ h)

theorem mapFind_mem : ∀ {m : List (Str × Course)} {k : Str} {c : Course},
    mapFind m k = some c → (k, c) ∈ m := by
  intro m
  induction m with
  | nil => intro k c h; simp [mapFind] at h
  | cons e m ih =>
    intro k c h
    obtain ⟨k', v'⟩ := e
    by_cases h1 : k' = k
    · subst h1
      have : v' = c := by simpa [mapFind] using h
      subst this
      exact List.mem_cons_self _ _
    · have : mapFind m k = some c := by simpa [mapFind, h1] using h
      exact List.mem_cons_of_mem _ (ih this)

theorem mem_keys_mapPut {m : List (Str × Course)} {k x : Str} {v : Course}
    (h : x ∈ (mapPut m k v).map Prod.fst) :
    x = k ∨ x ∈ m.map Prod.fst := by
  obtain ⟨e, he, hx⟩ := List.mem_map.mp h
  rcases mem_mapPut he with rfl | he'
  · exact Or.inl hx.symm
  · exact Or.inr (List.mem_map.mpr ⟨e, he', hx⟩)

theorem nodup_keys_mapPut : ∀ {m : List (Str × Course)},
    (m.map Prod.fst).Nodup → ∀ (k : Str) (v : Course),
    ((mapPut m k v).map Prod.fst).Nodup := by
  intro m
  induction m with
  | nil => intro _ k v; simp [mapPut]
  | cons e m ih =>
    intro hnd k v
    obtain ⟨k', v'⟩ := e
    rw [List.map_cons, List.nodup_cons] at hnd
    by_cases h1 : k' = k
    · subst h1
      rw [show mapPut ((k', v') :: m) k' v = (k', v) :: m from by
        simp [mapPut]]
      rw [List.map_cons, List.nodup_cons]
      exact hnd
    · rw [show mapPut ((k', v') :: m) k v = (k', v') :: mapPut m k v from by
        simp [mapPut, h1]]
      rw [List.map_cons, List.nodup_cons]
      refine ⟨?_, ih hnd.2 k v⟩
      intro habs
      rcases mem_keys_mapPut habs with h | h
      · exact h1 h
      · exact hnd.1 h

theorem warningsFor_eq (m : List (Str × Course)) (k : Str) (ps : List Str) :
    warningsFor m k ps =
      (ps.filter (fun p => (mapFind m p).isNone)).map
        (fun p => ⟨k, p⟩) := by
  suffices h : ∀ (qs : List Str) (ws : List Warning),
      qs.foldl (fun ws p =>
        if (mapFind m p).isNone then ws ++ [⟨k, p⟩] else ws) ws =
      ws ++ (qs.filter (fun p => (mapFind m p).isNone)).map
        (fun p => (⟨k, p⟩ : Warning)) by
    simpa [warningsFor] using h ps []
  intro qs
  induction qs with
  | nil => intro ws; simp
  | cons p qs ih =>
    intro ws
    simp only [List.foldl_cons, List.filter_cons]
    by_cases h : (mapFind m p).isNone
    · rw [if_pos h, ih]
      simp [h, List.append_assoc]
    · rw [if_neg h, ih]
      simp [h]

theorem validate_foldl_aux (m : List (Str × Course)) :
    ∀ (l : List (Str × Course)) (c0 : Catalog) (ws : List Warning),
    l.foldl (fun acc e =>
        (acc.1, acc.2 ++ warningsFor m e.1 e.2.prerequisites)) (c0, ws) =
      (c0, ws ++ l.flatMap (fun e => warningsFor m e.1 e.2.prerequisites)) := by
  intro l
  induction l with
  | nil => intro c0 ws; simp
  | cons e l ih =>
    intro c0 ws
    simp only [List.foldl_cons, List.flatMap_cons]
    rw [ih]
    simp [List.append_assoc]

theorem validatePass_eq (cat : Catalog) :
    validatePass cat =
      (cat, cat.map.flatMap
        (fun e => warningsFor cat.map e.1 e.2.prerequisites)) := by
  unfold validatePass
  rw [validate_foldl_aux]
  simp

theorem countP_warningsFor (m : List (Str × Course)) (k' k p : Str)
    (ps : List Str) :
    (warningsFor m k' ps).countP (fun w => w = ⟨k, p⟩) =
      if k' = k ∧ (mapFind m p).isNone then
        ps.countP (fun q => q = p)
      else 0 := by
  rw [warningsFor_eq, List.countP_map]
  by_cases hk : k' = k
  · subst hk
    by_cases hd : (mapFind m p).isNone
    · rw [if_pos ⟨rfl, hd⟩, List.countP_filter]
      apply List.countP_congr
      intro q hq
      simp only [Function.comp, Warning.mk.injEq, true_and,
        Bool.and_eq_true, decide_eq_true_eq]
      constructor
      · rintro ⟨h1, _⟩; exact h1
      · rintro rfl; exact ⟨rfl, hd⟩
    · rw [if_neg (by simp [hd]), List.countP_eq_zero]
      intro w hw habs
      have hwp : w = p := by
        simpa [Warning.mk.injEq] using habs
      exact hd (hwp ▸ (List.mem_filter.mp hw).2)
  · rw [if_neg (by simp [hk]), List.countP_eq_zero]
    intro w hw habs
    have hkw : k' = k ∧ w = p := by
      simpa [Warning.mk.injEq] using habs
    exact hk hkw.1

theorem countP_validate (m : List (Str × Course)) :
    ∀ (l : List (Str × Course)), ((l.map Prod.fst).Nodup) →
    ∀ (k : Str) (c : Course) (p : Str), (k, c) ∈ l →
    (l.flatMap (fun e => warningsFor m e.1 e.2.prerequisites)).countP
        (fun w => w = ⟨k, p⟩) =
      if (mapFind m p).isNone then
        c.prerequisites.countP (fun q => q = p)
      else 0 := by
  intro l
  induction l with
  | nil => intro _ k c p h; simp at h
  | cons e l ih =>
    intro hnd k c p hmem
    rw [List.map_cons, List.nodup_cons] at hnd
    simp only [List.flatMap_cons, List.countP_append]
    rcases List.mem_cons.mp hmem with heq | hmem'
    · have hcount0 : (l.flatMap
          (fun e => warningsFor m e.1 e.2.prerequisites)).countP
            (fun w => w = ⟨k, p⟩) = 0 := by
        rw [List.countP_eq_zero]
        intro w hw habs
        obtain ⟨e', he', hw'⟩ := List.mem_flatMap.mp hw
        rw [warningsFor_eq] at hw'
        obtain ⟨q, _, hq⟩ := List.mem_map.mp hw'
        have hwk : w.owner = e'.1 := by rw [← hq]
        have hwk2 : w.owner = k := by
          have : w = (⟨k, p⟩ : Warning) := by simpa using habs
          rw [this]
        apply hnd.1
        rw [show e.1 = k from by rw [← heq]]
        exact List.mem_map.mpr ⟨e', he', by rw [← hwk, hwk2]⟩
      rw [hcount0, countP_warningsFor]
      rw [show e.1 = k from by rw [← heq], show e.2 = c from by rw [← heq]]
      by_cases hd : (mapFind m p).isNone
      · simp [hd]
      · simp [hd]
    · have hek : ¬ e.1 = k := by
        intro habs
        exact hnd.1 (habs ▸ List.mem_map.mpr ⟨(k, c), hmem', rfl⟩)
      rw [countP_warningsFor, if_neg (by simp [hek])]
      rw [Nat.zero_add]
      exact ih hnd.2 k c p hmem'

theorem validate_nil_of_no_dangling {m : List (Str × Course)}
    (h : ∀ e ∈ m, ∀ q ∈ e.2.prerequisites, mapFind m q ≠ none) :
    m.flatMap (fun e => warningsFor m e.1 e.2.prerequisites) = [] := by
  rw [List.flatMap_eq_nil_iff]
  intro e he
  rw [warningsFor_eq]
  rw [List.map_eq_nil_iff, List.filter_eq_nil_iff]
  intro q hq habs
  exact h e he q hq (Option.isNone_iff_eq_none.mp habs)

theorem insertLine_prereqs {cat : Catalog} (h : CatPrereqsNonEmpty cat)
    (line : Str) : CatPrereqsNonEmpty (insertLine cat line) := by
  by_cases hl : line.isEmpty
  · simpa [insertLine, hl] using h
  · constructor
    · intro c hc p hp
      have hc2 : c ∈ inOrder (addNode cat.bst (parseLine line)) := by
        simpa [insertLine, hl] using hc
      rcases mem_inOrder_addNode.mp hc2 with rfl | hc'
      · exact parseLine_prereq_ne_nil line p hp
      · exact h.1 c hc' p hp
    · intro e he p hp
      have he2 : e ∈ mapPut cat.map (parseLine line).courseNumber
          (parseLine line) := by
        simpa [insertLine, hl] using he
      rcases mem_mapPut he2 with rfl | he'
      · exact parseLine_prereq_ne_nil line p hp
      · exact h.2 e he' p hp

theorem foldl_insertLine_prereqs : ∀ (lines : List Str) {cat : Catalog},
    CatPrereqsNonEmpty cat →
    CatPrereqsNonEmpty (lines.foldl insertLine cat) := by
  intro lines
  induction lines with
  | nil => intro cat h; simpa using h
  | cons l lines ih =>
    intro cat h
    simpa using ih (insertLine_prereqs h l)

theorem loadCourses_prereqs {cat : Catalog} (h : CatPrereqsNonEmpty cat)
    (s : Option (List Str)) :
    CatPrereqsNonEmpty (LoadCourses s cat).catalog := by
  cases s with
  | none => simpa [LoadCourses] using h
  | some lines =>
    have hcat : (LoadCourses (some lines) cat).catalog =
        lines.foldl insertLine cat := by
      simp [LoadCourses, validatePass_eq]
    rw [hcat]
    exact foldl_insertLine_prereqs lines h

theorem insertLine_keys_nodup {cat : Catalog}
    (h : (cat.map.map Prod.fst).Nodup) (line : Str) :
    (((insertLine cat line).map).map Prod.fst).Nodup := by
  by_cases hl : line.isEmpty
  · simpa [insertLine, hl] using h
  · have : (insertLine cat line).map =
        mapPut cat.map (parseLine line).courseNumber (parseLine line) := by
      simp [insertLine, hl]
    rw [this]
    exact nodup_keys_mapPut h _ _

theorem foldl_insertLine_keys_nodup : ∀ (lines : List Str) {cat : Catalog},
    (cat.map.map Prod.fst).Nodup →
    (((lines.foldl insertLine cat).map).map Prod.fst).Nodup := by
  intro lines
  induction lines with
  | nil => intro cat h; simpa using h
  | cons l lines ih =>
    intro cat h
    simpa using ih (insertLine_keys_nodup h l)

/-! ## Claims C7, C9, C10 -/

/-- C7: the referential-integrity pass over the final map emits, for
each record `(k, c)` of the map and each occurrence of a prerequisite
`p` in `c`'s list, exactly one warning `{owner := k, missing := p}` when
`p` is absent from the map and none when it is present (stated as a
warning count equal to the occurrence count, under the map's unique-key
invariant); it emits no warnings when no dangling reference exists;
and warnings never make the load fail: a successfully opened load
returns no error, its catalog is exactly the inserted state (dangling
records stay listed and queryable), and loading preserves the
unique-key invariant. -/
theorem C7_referential_warnings_per_dangling (cat : Catalog)
    (hnd : (cat.map.map Prod.fst).Nodup) (k p : Str) (c : Course)
    (hk : mapFind cat.map k = some c) (lines : List Str) (prior : Catalog) :
    ((validatePass cat).2.countP (fun w => w = ⟨k, p⟩) =
      if (mapFind cat.map p).isNone then
        c.prerequisites.countP (fun q => q = p)
      else 0) ∧
    ((∀ e ∈ cat.map, ∀ q ∈ e.2.prerequisites, mapFind cat.map q ≠ none) →
      (validatePass cat).2 = []) ∧
    (LoadCourses (some lines) prior).err = none ∧
    (LoadCourses (some lines) prior).catalog = lines.foldl insertLine prior ∧
    ((prior.map.map Prod.fst).Nodup →
      (((LoadCourses (some lines) prior).catalog.map).map Prod.fst).Nodup) := by
  refine ⟨?_, ?_, ?_, ?_, ?_⟩
  · rw [validatePass_eq]
    exact countP_validate cat.map cat.map hnd k c p (mapFind_mem hk)
  · intro h
    rw [validatePass_eq]
    exact validate_nil_of_no_dangling h
  · simp [LoadCourses, validatePass_eq]
  · simp [LoadCourses, validatePass_eq]
  · intro h
    have hcat : (LoadCourses (some lines) prior).catalog =
        lines.foldl insertLine prior := by
      simp [LoadCourses, validatePass_eq]
    rw [hcat]
    exact foldl_insertLine_keys_nodup lines h

/-- Witness for C7 at concrete inputs: a one-record map whose record
references the missing prerequisite "B" twice yields warning count 2 for
that pair; a map with no prerequisites yields no warnings; a trivial
load returns no error. -/
theorem C7_referential_warnings_per_dangling_witness :
    ((validatePass ⟨.nil, [(['A'], ⟨['A'], [], [['B'], ['B']]⟩)]⟩).2.countP
        (fun w => w = ⟨['A'], ['B']⟩) =
      if (mapFind [(['A'], ⟨['A'], [], [['B'], ['B']]⟩)] ['B']).isNone then
        (⟨['A'], [], [['B'], ['B']]⟩ : Course).prerequisites.countP
          (fun q => q = ['B'])
      else 0) ∧
    (validatePass ⟨.nil, [(['A'], ⟨['A'], [], []⟩)]⟩).2 = [] ∧
    (LoadCourses (some []) emptyCatalog).err = none ∧
    (LoadCourses (some []) emptyCatalog).catalog =
      [].foldl insertLine emptyCatalog ∧
    (((LoadCourses (some []) emptyCatalog).catalog.map).map Prod.fst).Nodup :=
  ⟨(C7_referential_warnings_per_dangling
      ⟨.nil, [(['A'], ⟨['A'], [], [['B'], ['B']]⟩)]⟩ (by decide)
      ['A'] ['B'] ⟨['A'], [], [['B'], ['B']]⟩ (by decide) [] emptyCatalog).1,
   (C7_referential_warnings_per_dangling
      ⟨.nil, [(['A'], ⟨['A'], [], []⟩)]⟩ (by decide)
      ['A'] ['B'] ⟨['A'], [], []⟩ (by decide) [] emptyCatalog).2.1 (by decide),
   (C7_referential_warnings_per_dangling
      ⟨.nil, [(['A'], ⟨['A'], [], [['B'], ['B']]⟩)]⟩ (by decide)
      ['A'] ['B'] ⟨['A'], [], [['B'], ['B']]⟩ (by decide) [] emptyCatalog).2.2.1,
   (C7_referential_warnings_per_dangling
      ⟨.nil, [(['A'], ⟨['A'], [], [['B'], ['B']]⟩)]⟩ (by decide)
      ['A'] ['B'] ⟨['A'], [], [['B'], ['B']]⟩ (by decide) [] emptyCatalog).2.2.2.1,
   (C7_referential_warnings_per_dangling
      ⟨.nil, [(['A'], ⟨['A'], [], [['B'], ['B']]⟩)]⟩ (by decide)
      ['A'] ['B'] ⟨['A'], [], [['B'], ['B']]⟩ (by decide) [] emptyCatalog).2.2.2.2
      (by decide)⟩

/-- C9: after any sequence of load operations starting from the empty
catalog (each load either failing to open or consuming a list of lines),
every prerequisite stored in either index is a non-empty string, because
both parsing variants drop tokens that are empty after trimming. -/
theorem C9_stored_prereqs_nonempty (sources : List (Option (List Str))) :
    CatPrereqsNonEmpty
      (sources.foldl (fun cat s => (LoadCourses s cat).catalog)
        emptyCatalog) ∧
    ∀ line, ∀ p ∈ (parseLineOrig line).prerequisites, p ≠ [] := by
  constructor
  · have hempty : CatPrereqsNonEmpty emptyCatalog := by
      constructor
      · intro c hc
        simp [emptyCatalog, inOrder] at hc
      · intro e he
        simp [emptyCatalog] at he
    have hgen : ∀ (ss : List (Option (List Str))) (cat : Catalog),
        CatPrereqsNonEmpty cat →
        CatPrereqsNonEmpty
          (ss.foldl (fun cat s => (LoadCourses s cat).catalog) cat) := by
      intro ss
      induction ss with
      | nil => intro cat h; simpa using h
      | cons s ss ih =>
        intro cat h
        simpa using ih _ (loadCourses_prereqs h s)
    exact hgen sources emptyCatalog hempty
  · exact fun line => parseLineOrig_prereq_ne_nil line

/-- C10: the validation pass is read-only — it returns the catalog it
was given unchanged — so the catalog returned by a successful load is
exactly the state after the last line was inserted, in both indexes. -/
theorem C10_validation_pass_read_only (cat : Catalog) (lines : List Str)
    (prior : Catalog) :
    (validatePass cat).1 = cat ∧
    (LoadCourses (some lines) prior).catalog.bst =
      (lines.foldl insertLine prior).bst ∧
    (LoadCourses (some lines) prior).catalog.map =
      (lines.foldl insertLine prior).map := by
  have h1 : (validatePass cat).1 = cat := by rw [validatePass_eq]
  have h2 : (LoadCourses (some lines) prior).catalog =
      lines.foldl insertLine prior := by
    simp [LoadCourses, validatePass_eq]
  exact ⟨h1, by rw [h2], by rw [h2]⟩

end Eportfolio
